import Mathlib

/-! Verification of the fish-plant certification-search crawler
    (src/scripts/plants_websites_crawl.py), as a shallow embedding.
    Python strings are modelled as `List Char`; Python `urllib.parse`
    and other library routines used by the script are modelled from
    their documented CPython semantics, restricted to ASCII input. -/

set_option maxRecDepth 4000

/-- Models CPython `str.lower` on one character, restricted to ASCII
    (the URLs and keywords the crawler handles are ASCII). -/
def pyLower (c : Char) : Char :=
  if 'A' ≤ c ∧ c ≤ 'Z' then Char.ofNat (c.toNat + 32) else c

/-- Models `str.lower` on a Python string. -/
def toLowerL (l : List Char) : List Char := l.map pyLower

theorem toNat_ofNat_of_valid {n : Nat} (h : n < 55296) : (Char.ofNat n).toNat = n := by
  unfold Char.ofNat
  rw [dif_pos (Or.inl h)]
  simp only [Char.ofNatAux, Char.toNat, UInt32.ofNat']
  simp only [UInt32.toNat, UInt32.toBitVec]
  simp [BitVec.toNat_ofNatLt]

theorem char_le_iff_toNat {a b : Char} : a ≤ b ↔ a.toNat ≤ b.toNat := by
  rw [Char.le_def]
  simp [UInt32.le_def, BitVec.le_def, Char.toNat, UInt32.toNat]

theorem pyLower_eq_self (c : Char) (h : ¬ ('A' ≤ c ∧ c ≤ 'Z')) : pyLower c = c := by
  unfold pyLower
  rw [if_neg h]

theorem pyLower_toNat_lower (c : Char) :
    pyLower c = c ∨ (97 ≤ (pyLower c).toNat ∧ (pyLower c).toNat ≤ 122) := by
  unfold pyLower
  by_cases h : 'A' ≤ c ∧ c ≤ 'Z'
  · right
    rw [if_pos h]
    have h1 : c.toNat ≤ 90 := char_le_iff_toNat.mp h.2
    have h2 : 65 ≤ c.toNat := char_le_iff_toNat.mp h.1
    rw [toNat_ofNat_of_valid (by omega)]
    omega
  · left
    rw [if_neg h]

theorem pyLower_idem (c : Char) : pyLower (pyLower c) = pyLower c := by
  rcases pyLower_toNat_lower c with h | h
  · rw [h, h]
  · apply pyLower_eq_self
    intro hcon
    have h1 := char_le_iff_toNat.mp hcon.2
    have h2 : ('Z' : Char).toNat = 90 := rfl
    rw [h2] at h1
    omega

theorem pyLower_ne_low (c x : Char) (hx : x.toNat < 97) (hc : c ≠ x) : pyLower c ≠ x := by
  rcases pyLower_toNat_lower c with h | h
  · rw [h]; exact hc
  · intro he
    rw [he] at h
    omega

theorem toLowerL_idem (l : List Char) : toLowerL (toLowerL l) = toLowerL l := by
  unfold toLowerL
  rw [List.map_map]
  apply List.map_congr_left
  intro c _
  exact pyLower_idem c

theorem toLowerL_fixed_of_mem (l : List Char) (h : ∀ c ∈ l, pyLower c = c) :
    toLowerL l = l := by
  unfold toLowerL
  apply List.map_congr_left at h
  rw [h]
  simp

theorem mem_toLowerL_fixed (l : List Char) (c : Char) (h : c ∈ toLowerL l) :
    pyLower c = c := by
  unfold toLowerL at h
  obtain ⟨a, _, rfl⟩ := List.mem_map.mp h
  exact pyLower_idem a

/-- Boolean character membership, models Python `c in s` for a character. -/
def hasChar (c : Char) : List Char → Bool
  | [] => false
  | x :: xs => if x = c then true else hasChar c xs

theorem hasChar_append (c : Char) (a b : List Char) :
    hasChar c (a ++ b) = (hasChar c a || hasChar c b) := by
  induction a with
  | nil => simp [hasChar]
  | cons x xs ih => by_cases h : x = c <;> simp [hasChar, h, ih]

theorem hasChar_cons_self (c : Char) (b : List Char) : hasChar c (c :: b) = true := by
  simp [hasChar]

theorem hasChar_eq_false_head {c x : Char} {xs : List Char}
    (h : hasChar c (x :: xs) = false) : x ≠ c ∧ hasChar c xs = false := by
  by_cases hx : x = c <;> simp [hasChar, hx] at h ⊢
  exact h

/-- Splits a string at the first occurrence of `c`; the separator is dropped.
    When `c` does not occur, returns the whole string with an empty remainder,
    matching how the CPython parser uses `find` plus slicing. -/
def splitAtFirst (c : Char) : List Char → List Char × List Char
  | [] => ([], [])
  | x :: xs =>
    if x = c then ([], xs)
    else
      let r := splitAtFirst c xs
      (x :: r.1, r.2)

theorem splitAtFirst_of_not {c : Char} {l : List Char} (h : hasChar c l = false) :
    splitAtFirst c l = (l, []) := by
  induction l with
  | nil => rfl
  | cons x xs ih =>
    obtain ⟨hx, hxs⟩ := hasChar_eq_false_head h
    simp [splitAtFirst, hx, ih hxs]

theorem splitAtFirst_append {c : Char} {a : List Char} (b : List Char)
    (h : hasChar c a = false) : splitAtFirst c (a ++ c :: b) = (a, b) := by
  induction a with
  | nil => simp [splitAtFirst]
  | cons x xs ih =>
    obtain ⟨hx, hxs⟩ := hasChar_eq_false_head h
    simp [splitAtFirst, hx, ih hxs]

/-- Models Python `s.split(c)` for a one-character separator. -/
def splitOnChar (c : Char) : List Char → List (List Char)
  | [] => [[]]
  | x :: xs =>
    if x = c then [] :: splitOnChar c xs
    else
      match splitOnChar c xs with
      | [] => [[x]]
      | h :: t => (x :: h) :: t

theorem splitOnChar_ne_nil (c : Char) (l : List Char) : splitOnChar c l ≠ [] := by
  induction l with
  | nil => simp [splitOnChar]
  | cons x xs ih =>
    by_cases h : x = c
    · simp [splitOnChar, h]
    · simp only [splitOnChar, if_neg h]
      cases hs : splitOnChar c xs <;> simp

theorem splitOnChar_of_not {c : Char} {l : List Char} (h : hasChar c l = false) :
    splitOnChar c l = [l] := by
  induction l with
  | nil => rfl
  | cons x xs ih =>
    obtain ⟨hx, hxs⟩ := hasChar_eq_false_head h
    simp [splitOnChar, hx, ih hxs]

theorem splitOnChar_append {c : Char} {a : List Char} (b : List Char)
    (h : hasChar c a = false) :
    splitOnChar c (a ++ c :: b) = a :: splitOnChar c b := by
  induction a with
  | nil => simp [splitOnChar]
  | cons x xs ih =>
    obtain ⟨hx, hxs⟩ := hasChar_eq_false_head h
    simp only [List.cons_append, splitOnChar, if_neg hx, List.append_eq]
    rw [ih hxs]

theorem mem_splitOnChar_not_hasChar {c : Char} {l x : List Char}
    (h : x ∈ splitOnChar c l) : hasChar c x = false := by
  induction l generalizing x with
  | nil =>
    simp [splitOnChar] at h
    simp [h, hasChar]
  | cons y ys ih =>
    by_cases hy : y = c
    · simp only [splitOnChar, if_pos hy] at h
      rcases List.mem_cons.mp h with rfl | h2
      · rfl
      · exact ih h2
    · simp only [splitOnChar, if_neg hy] at h
      cases hs : splitOnChar c ys with
      | nil => exact absurd hs (splitOnChar_ne_nil c ys)
      | cons z t =>
        rw [hs] at h
        rcases List.mem_cons.mp h with rfl | h2
        · have hz : z ∈ splitOnChar c ys := by rw [hs]; exact List.mem_cons_self z t
          have := ih hz
          simp [hasChar, hy, this]
        · exact ih (by rw [hs]; exact List.mem_cons_of_mem z h2)

/-- Models Python `sep.join(parts)` for a one-character separator. -/
def joinChar (c : Char) : List (List Char) → List Char
  | [] => []
  | [x] => x
  | x :: y :: t => x ++ c :: joinChar c (y :: t)

theorem splitOnChar_joinChar {c : Char} {l : List (List Char)} (hne : l ≠ [])
    (h : ∀ x ∈ l, hasChar c x = false) : splitOnChar c (joinChar c l) = l := by
  induction l with
  | nil => exact absurd rfl hne
  | cons x xs ih =>
    cases xs with
    | nil =>
      simp only [joinChar]
      exact splitOnChar_of_not (h x (List.mem_cons_self x []))
    | cons y t =>
      simp only [joinChar]
      rw [splitOnChar_append _ (h x (List.mem_cons_self x _))]
      congr 1
      exact ih (by simp) (fun z hz => h z (List.mem_cons_of_mem x hz))

/-- Boolean prefix test on character lists. -/
def isPrefixL : List Char → List Char → Bool
  | [], _ => true
  | _ :: _, [] => false
  | a :: as, b :: bs => if a = b then isPrefixL as bs else false

/-- Models Python `needle in haystack` (substring containment). -/
def containsSub (n : List Char) : List Char → Bool
  | [] => n.isEmpty
  | x :: xs => isPrefixL n (x :: xs) || containsSub n xs

theorem containsSub_nil_false {n : List Char} (h : n ≠ []) :
    containsSub n [] = false := by
  cases n with
  | nil => exact absurd rfl h
  | cons a as => rfl

/-- Models Python `str.strip` of trailing whitespace (the recursion removes
    a maximal whitespace suffix). -/
def stripTrailing (p : Char → Bool) : List Char → List Char
  | [] => []
  | x :: xs =>
    let r := stripTrailing p xs
    if r = [] ∧ p x then [] else x :: r

/-- The whitespace set of Python `str.strip` with no arguments (ASCII part). -/
def isPySpace (c : Char) : Bool :=
  c = ' ' ∨ c = '\t' ∨ c = '\n' ∨ c = '\r' ∨ c = Char.ofNat 11 ∨ c = Char.ofNat 12

/-- Models Python `s.strip()`. -/
def pyStrip (l : List Char) : List Char :=
  stripTrailing isPySpace (l.dropWhile isPySpace)

theorem stripTrailing_idem (p : Char → Bool) (l : List Char) :
    stripTrailing p (stripTrailing p l) = stripTrailing p l := by
  induction l with
  | nil => rfl
  | cons x xs ih =>
    simp only [stripTrailing]
    by_cases h : stripTrailing p xs = [] ∧ p x
    · rw [if_pos h]
      rfl
    · rw [if_neg h]
      simp only [stripTrailing, ih]
      rw [if_neg h]

theorem dropWhile_stripTrailing (p : Char → Bool) (m : List Char)
    (h : m.dropWhile p = m) :
    (stripTrailing p m).dropWhile p = stripTrailing p m := by
  cases m with
  | nil => rfl
  | cons x xs =>
    have hx : p x = false := by
      by_cases hp : p x = true
      · rw [List.dropWhile_cons_of_pos hp] at h
        have hsub : (xs.dropWhile p).Sublist xs := List.dropWhile_sublist p
        have hlen := hsub.length_le
        rw [h] at hlen
        simp at hlen
      · simpa using hp
    simp only [stripTrailing]
    by_cases hc : stripTrailing p xs = [] ∧ p x
    · rw [if_pos hc]; rfl
    · rw [if_neg hc]
      exact List.dropWhile_cons_of_neg (by simp [hx])

theorem pyStrip_idem (l : List Char) : pyStrip (pyStrip l) = pyStrip l := by
  unfold pyStrip
  rw [dropWhile_stripTrailing isPySpace _ (List.dropWhile_idempotent isPySpace _),
    stripTrailing_idem]

/-- Sorted insert without duplicates; used to model Python `sorted(set(s))`,
    whose value is the increasing enumeration of the distinct elements. -/
def insSD (x : List Char) : List (List Char) → List (List Char)
  | [] => [x]
  | y :: ys =>
    if x < y then x :: y :: ys
    else if x = y then y :: ys
    else y :: insSD x ys

/-- Models Python `sorted(set(l))` (ascending lexicographic order on code
    points, duplicates removed). -/
def sortDedup (l : List (List Char)) : List (List Char) :=
  l.foldl (fun acc x => insSD x acc) []

/-- Strictly increasing (hence duplicate-free) list of strings. -/
def SortedND (l : List (List Char)) : Prop := l.Pairwise (fun a b => a < b)

theorem mem_insSD {z x : List Char} {l : List (List Char)} :
    z ∈ insSD x l ↔ z = x ∨ z ∈ l := by
  induction l with
  | nil => simp [insSD]
  | cons y ys ih =>
    by_cases h1 : x < y
    · simp [insSD, h1]
    · by_cases h2 : x = y
      · subst h2
        simp only [insSD, if_neg h1, if_pos rfl]
        constructor
        · exact fun h => Or.inr h
        · rintro (rfl | h)
          · exact List.mem_cons_self _ _
          · exact h
      · simp only [insSD, if_neg h1, if_neg h2, List.mem_cons, ih]
        tauto

theorem insSD_pairwise {x : List Char} {l : List (List Char)} (h : SortedND l) :
    SortedND (insSD x l) := by
  induction l with
  | nil => simp [insSD, SortedND]
  | cons y ys ih =>
    rcases List.pairwise_cons.mp h with ⟨hy, hys⟩
    by_cases h1 : x < y
    · simp only [insSD, if_pos h1]
      refine List.pairwise_cons.mpr ⟨?_, h⟩
      intro z hz
      rcases List.mem_cons.mp hz with rfl | hz2
      · exact h1
      · exact lt_trans h1 (hy z hz2)
    · by_cases h2 : x = y
      · rw [show insSD x (y :: ys) = y :: ys from by simp [insSD, h1, h2]]
        exact h
      · simp only [insSD, if_neg h1, if_neg h2]
        have h3 : y < x := by
          rcases lt_trichotomy x y with hc | hc | hc
          · exact absurd hc h1
          · exact absurd hc h2
          · exact hc
        refine List.pairwise_cons.mpr ⟨?_, ih hys⟩
        intro z hz
        rcases mem_insSD.mp hz with rfl | hz2
        · exact h3
        · exact hy z hz2

theorem insSD_of_mem {x : List Char} {l : List (List Char)}
    (hs : SortedND l) (hm : x ∈ l) : insSD x l = l := by
  induction l with
  | nil => cases hm
  | cons y ys ih =>
    rcases List.pairwise_cons.mp hs with ⟨hy, hys⟩
    rcases List.mem_cons.mp hm with rfl | hm2
    · simp [insSD, lt_irrefl]
    · have hlt : y < x := hy x hm2
      have h1 : ¬ x < y := fun hc => absurd (lt_trans hc hlt) (lt_irrefl x)
      have h2 : x ≠ y := fun he => by subst he; exact absurd hlt (lt_irrefl x)
      simp [insSD, h1, h2, ih hys hm2]

theorem mem_foldl_insSD {z : List Char} {f : List (List Char)}
    {acc : List (List Char)} :
    z ∈ f.foldl (fun acc x => insSD x acc) acc ↔ z ∈ acc ∨ z ∈ f := by
  induction f generalizing acc with
  | nil => simp
  | cons x xs ih =>
    rw [List.foldl_cons, ih]
    rw [mem_insSD]
    simp only [List.mem_cons]
    tauto

theorem foldl_insSD_pairwise {f acc : List (List Char)} (h : SortedND acc) :
    SortedND (f.foldl (fun acc x => insSD x acc) acc) := by
  induction f generalizing acc with
  | nil => exact h
  | cons x xs ih => exact ih (insSD_pairwise h)

theorem mem_sortDedup {z : List Char} {l : List (List Char)} :
    z ∈ sortDedup l ↔ z ∈ l := by
  unfold sortDedup
  rw [mem_foldl_insSD]
  simp

theorem sortDedup_pairwise (l : List (List Char)) : SortedND (sortDedup l) :=
  foldl_insSD_pairwise (by simp [SortedND])

theorem foldl_insSD_absorb {f m : List (List Char)} (hs : SortedND m)
    (hsub : ∀ x ∈ f, x ∈ m) : f.foldl (fun acc x => insSD x acc) m = m := by
  induction f with
  | nil => rfl
  | cons x xs ih =>
    rw [List.foldl_cons, insSD_of_mem hs (hsub x (List.mem_cons_self x xs))]
    exact ih (fun z hz => hsub z (List.mem_cons_of_mem x hz))

theorem sortDedup_append_absorb {L f : List (List Char)}
    (hsub : ∀ x ∈ f, x ∈ sortDedup L) : sortDedup (L ++ f) = sortDedup L := by
  unfold sortDedup
  rw [List.foldl_append]
  exact foldl_insSD_absorb (sortDedup_pairwise L) hsub

/-- Components of a parsed URL, as returned by `urllib.parse.urlparse`. -/
structure UrlParts where
  scheme : List Char
  netloc : List Char
  path : List Char
  params : List Char
  query : List Char
  fragment : List Char
deriving DecidableEq, Repr

/-- Characters CPython admits inside a URL scheme. -/
def schemeChar (c : Char) : Bool :=
  c.isAlpha || c.isDigit || c = '+' || c = '-' || c = '.'

/-- Scheme-removal step of CPython `urlsplit`: the part before the first `:`
    is a scheme when nonempty, letter-initial and made of scheme characters;
    it is returned lower-cased. -/
def splitScheme (u : List Char) : List Char × List Char :=
  if hasChar ':' u then
    let a := (splitAtFirst ':' u).1
    let b := (splitAtFirst ':' u).2
    if a ≠ [] ∧ (a.headD ' ').isAlpha ∧ a.all schemeChar then (toLowerL a, b)
    else ([], u)
  else ([], u)

/-- A character that terminates the netloc in CPython `urlsplit`. -/
def stopChar (c : Char) : Bool := c = '/' || c = '?' || c = '#'

/-- Netloc-removal step of CPython `urlsplit`: after a leading `//` the netloc
    extends to the first `/`, `?` or `#`. -/
def splitNetloc (u : List Char) : List Char × List Char :=
  match u with
  | '/' :: '/' :: rest =>
    (rest.takeWhile (fun c => !(stopChar c)), rest.dropWhile (fun c => !(stopChar c)))
  | _ => ([], u)

/-- Last-slash split: `splitLastSlash p = some (pre, seg)` when
    `p = pre ++ '/' :: seg` with `seg` slash-free; `none` when `p` has no
    slash.  Models Python `rfind` plus slicing. -/
def splitLastSlash : List Char → Option (List Char × List Char)
  | [] => none
  | x :: xs =>
    match splitLastSlash xs with
    | some (pre, seg) => some (x :: pre, seg)
    | none => if x = '/' then some ([], xs) else none

/-- Parameter split of CPython `urlparse` (`_splitparams`): the params start
    at the first `;` at or after the last `/` (anywhere when there is no `/`). -/
def splitParams (p : List Char) : List Char × List Char :=
  match splitLastSlash p with
  | some (pre, seg) =>
    if hasChar ';' seg then
      let r := splitAtFirst ';' seg
      (pre ++ '/' :: r.1, r.2)
    else (p, [])
  | none =>
    if hasChar ';' p then splitAtFirst ';' p else (p, [])

/-- Models CPython `urllib.parse.urlparse` for params-using schemes (http and
    https are such): scheme, then netloc, then fragment at the first `#`,
    then query at the first `?`, then params split out of the path. -/
def urlparse (u : List Char) : UrlParts :=
  let s := splitScheme u
  let n := splitNetloc s.2
  let f := splitAtFirst '#' n.2
  let q := splitAtFirst '?' f.1
  let pp := splitParams q.1
  ⟨s.1, n.1, pp.1, pp.2, q.2, f.2⟩

/-- Models CPython `urllib.parse.urlunparse` (via `urlunsplit`). -/
def urlunparse (pr : UrlParts) : List Char :=
  let url0 := if pr.params ≠ [] then pr.path ++ ';' :: pr.params else pr.path
  let url1 :=
    if pr.netloc ≠ [] ∨ url0.take 2 = ['/', '/'] then
      '/' :: '/' :: pr.netloc ++
        (if url0 ≠ [] ∧ url0.take 1 ≠ ['/'] then '/' :: url0 else url0)
    else url0
  let url2 := if pr.scheme ≠ [] then pr.scheme ++ ':' :: url1 else url1
  let url3 := if pr.query ≠ [] then url2 ++ '?' :: pr.query else url2
  if pr.fragment ≠ [] then url3 ++ '#' :: pr.fragment else url3

/-- The tracking-parameter denylist of `normalize_url`. -/
def blocked_params : List (List Char) :=
  [("utm_source").toList, ("utm_medium").toList, ("utm_campaign").toList,
   ("fbclid").toList, ("gclid").toList]

/-- Query-parameter filter of `normalize_url`: a parameter is appended iff it
    contains `=` and its name (the part before the first `=`) is not in the
    denylist. -/
def keepParam (pr : List Char) : Bool :=
  hasChar '=' pr && !(decide (pr.takeWhile (fun c => c ≠ '=') ∈ blocked_params))

/-- Index-file strip of `normalize_url`: when the path ends in
    `/index.html`, `/index.php` or `/index.asp`, keep only the part before
    the last slash (Python `path.rsplit('/', 1)[0]`). -/
def stripIndex (p : List Char) : List Char :=
  if (("/index.html").toList.isSuffixOf p || ("/index.php").toList.isSuffixOf p ||
      ("/index.asp").toList.isSuffixOf p) then
    match splitLastSlash p with
    | some (pre, _) => pre
    | none => p
  else p

/-- Trailing-slash strip of `normalize_url`: drop one final `/` unless the
    path is a single character. -/
def stripSlash (p : List Char) : List Char :=
  if p.getLast? = some '/' ∧ p.length > 1 then p.dropLast else p

/-- Models `normalize_url` from the source: lower-case host and path, drop
    blocked query parameters (and parameters without `=`), strip a trailing
    index file then a trailing slash, drop the fragment.  The Python
    `try/except` fallback to the raw URL cannot fire in this total model. -/
def normalize_url (u : List Char) : List Char :=
  let parsed := urlparse u
  let netloc := toLowerL parsed.netloc
  let path := toLowerL parsed.path
  let filtered := (splitOnChar '&' parsed.query).filter keepParam
  let query := joinChar '&' filtered
  let path2 := stripSlash (stripIndex path)
  urlunparse ⟨parsed.scheme, netloc, path2, parsed.params, query, []⟩

/-- Characters we admit in a host name. -/
def hostChar (c : Char) : Bool :=
  c.isAlpha || c.isDigit || c = '.' || c = '-' || c = ':'

/-- Structural validity check modelling the external `validators.url` test
    used by `clean_and_validate_url`: an http(s) URL with a nonempty dotted
    host of permitted characters.  For such URLs `urllib3.parse_url(u).url`
    returns the input unchanged, so reconstruction is the identity here. -/
def validUrl (u : List Char) : Bool :=
  let pr := urlparse u
  decide ((pr.scheme = ("http").toList ∨ pr.scheme = ("https").toList) ∧
    pr.netloc ≠ [] ∧ pr.netloc.all hostChar = true ∧ hasChar '.' pr.netloc = true)

/-- Models `clean_and_validate_url` from the source: prepend `http://` when no
    scheme marker is present, then validate; `none` models Python `None`. -/
def clean_and_validate_url (u : List Char) : Option (List Char) :=
  if u = [] then none
  else
    let u2 :=
      if (("http://").toList.isPrefixOf u || ("https://").toList.isPrefixOf u)
      then u else ("http://").toList ++ u
    if validUrl u2 then some u2 else none

/-- Models `is_same_domain` from the source: the base URL's host must occur
    as a substring of the candidate URL's host. -/
def is_same_domain (base newUrl : List Char) : Bool :=
  containsSub (urlparse base).netloc (urlparse newUrl).netloc

/-- A pandas cell: a Python string, or some non-string value (NaN, numbers). -/
inductive Cell
  | str (s : List Char)
  | other
deriving DecidableEq, Repr

/-- The string the merge code works on: non-string cells are replaced by the
    empty string (`if not isinstance(existing_val, str): existing_val = ""`). -/
def cellStr : Cell → List Char
  | .str s => s
  | .other => []

/-- Models `set(u.strip() for u in existing_val.split(";") if u.strip())`. -/
def parseCell (s : List Char) : List (List Char) :=
  ((splitOnChar ';' s).map pyStrip).filter (fun x => x ≠ [])

/-- Models the per-cell merge of `process_df_with_sites`: when the crawl found
    URLs for this certification (`if found_urls:`), the cell becomes the
    `;`-joined sorted union of the stored URLs with the found ones; otherwise
    the cell is untouched. -/
def updateCell (cell : Cell) (found : List (List Char)) : Cell :=
  if found = [] then cell
  else .str (joinChar ';' (sortDedup (parseCell (cellStr cell) ++ found)))

/-- Column lookup in an association-list record row. -/
def lookupCol (col : List Char) (l : List (List Char × Cell)) : Option Cell :=
  match l.find? (fun p => p.1 == col) with
  | some p => some p.2
  | none => none

/-- Lookup of a certification's found-URL set in a crawl result. -/
def lookupFound (col : List Char) (l : List (List Char × List (List Char))) :
    Option (List (List Char)) :=
  match l.find? (fun p => p.1 == col) with
  | some p => some p.2
  | none => none

/-- Models the merge loop of `process_df_with_sites` on one record: every
    certification column present in the crawl result is merged through
    `updateCell` (which leaves the cell unchanged when the set is empty);
    other columns keep their value. -/
def applyCrawlResult (row : List (List Char × Cell))
    (found : List (List Char × List (List Char))) : List (List Char × Cell) :=
  row.map (fun p =>
    match lookupFound p.1 found with
    | some urls => (p.1, updateCell p.2 urls)
    | none => p)

/-- One attempt's outcome as seen by `fetch_with_retry`: a response carrying a
    status, a content type and a body readable as bytes or as decoded text, or
    a raised `TimeoutError` / `aiohttp.ClientError`. -/
inductive AttemptOutcome
  | resp (status : Nat) (contentType : List Char) (bytesView : List Nat)
      (textView : List Char)
  | exn

/-- Content returned by `fetch_with_retry`: `resp.read()` bytes for PDF
    content types, decoded text otherwise. -/
inductive FetchContent
  | bytes (b : List Nat)
  | txt (t : List Char)
deriving DecidableEq, Repr

/-- Result of `fetch_with_retry` plus its observable effects: `sleeps` records
    the argument of every `asyncio.sleep` call in order, `attempts` the number
    of HTTP requests issued. -/
structure FetchResult where
  content : Option FetchContent
  contentType : Option (List Char)
  sleeps : List Nat
  attempts : Nat
deriving DecidableEq, Repr

/-- The retry loop of `fetch_with_retry`, with `r` remaining iterations of
    `for attempt in range(max_retries)` and `attempt` the current index. -/
def fetchAux (outs : Nat → AttemptOutcome) : Nat → Nat → FetchResult
  | 0, _ => ⟨none, none, [], 0⟩
  | r + 1, attempt =>
    match outs attempt with
    | .resp s ct bv tv =>
      if s = 200 then
        ⟨some (if containsSub ("pdf").toList (toLowerL ct) then .bytes bv else .txt tv),
         some (toLowerL ct), [], 1⟩
      else if s = 429 ∨ s = 503 then
        let rest := fetchAux outs r (attempt + 1)
        ⟨rest.content, rest.contentType, min (2 ^ attempt) 8 :: rest.sleeps,
         rest.attempts + 1⟩
      else ⟨none, none, [], 1⟩
    | .exn =>
      if r = 0 then ⟨none, none, [], 1⟩
      else
        let rest := fetchAux outs r (attempt + 1)
        ⟨rest.content, rest.contentType, 1 :: rest.sleeps, rest.attempts + 1⟩

/-- Models `fetch_with_retry` from the source; `outs` gives each attempt's
    outcome. -/
def fetch_with_retry (outs : Nat → AttemptOutcome) (max_retries : Nat) :
    FetchResult :=
  fetchAux outs max_retries 0

/-- Outcome of `page.extract_text()` on one PDF page: text, or a raised
    extraction error. -/
inductive PageOutcome
  | text (t : List Char)
  | errPage
deriving DecidableEq, Repr

/-- A PDF body as `PyPDF2.PdfReader` sees it: byte size, whether the reader
    accepts it (`PdfReadError` otherwise), and its pages. -/
structure PdfDoc where
  size : Nat
  readable : Bool
  pages : List PageOutcome
deriving DecidableEq, Repr

/-- Page loop of `extract_text_from_pdf`: append a space and the page text for
    every page extracting to nonempty text, skipping pages that raise. -/
def pdfPagesText (pages : List PageOutcome) : List Char :=
  pages.foldl (fun acc p =>
    match p with
    | .text t => if t ≠ [] then acc ++ ' ' :: t else acc
    | .errPage => acc) []

/-- Models `extract_text_from_pdf` from the source: reject bodies over 10 MB,
    reject unreadable PDFs, read at most the first 50 pages, lower-case the
    concatenated result. -/
def extract_text_from_pdf (d : PdfDoc) : List Char :=
  if d.size > 10 * 1024 * 1024 then []
  else if !d.readable then []
  else toLowerL (pdfPagesText (d.pages.take (min d.pages.length 50)))

/-- A fetched body as the crawler classifies it.  HTML parsing (BeautifulSoup
    text extraction and `href` collection with `urljoin` resolution against
    the current URL) is abstracted into the environment: `text` is the page's
    extracted text, `links` its resolved outgoing hyperlinks. -/
inductive Body
  | html (text : List Char) (links : List (List Char))
  | pdf (doc : PdfDoc)
  | otherBody

/-- What `session.get(url)` yields for a URL: a response with status, content
    type and body, or a raised exception (timeout, client error). -/
inductive FetchReply
  | ok (status : Nat) (contentType : List Char) (body : Body)
  | exn

/-- State of one site traversal of `crawl_for_keywords_async`, together with
    two observation logs: `fetchLog` records every URL passed to
    `session.get` in order, `dequeueLog` every (url, depth) pair taken off the
    frontier queue. -/
structure CrawlState where
  found : List (List Char × List (List Char))
  visited : List (List Char)
  queue : List (List Char × Nat)
  pagesCrawled : Nat
  fetchLog : List (List Char)
  dequeueLog : List (List Char × Nat)

/-- Models `found_urls_by_cert = {col: set() for col in cert_keywords}`. -/
def initFound (ck : List (List Char × List (List Char))) :
    List (List Char × List (List Char)) :=
  ck.map (fun p => (p.1, []))

/-- Models `found_urls_by_cert[cert_col].add(url)` (set insertion). -/
def addFound (found : List (List Char × List (List Char))) (cert url : List Char) :
    List (List Char × List (List Char)) :=
  found.map (fun p =>
    if p.1 = cert then (p.1, if url ∈ p.2 then p.2 else p.2 ++ [url]) else p)

/-- The keyword scan of the crawl loop: for every certification with a
    (lower-cased) keyword occurring in the page text, add the normalized
    current URL to that certification's set. -/
def matchKeywords (found : List (List Char × List (List Char)))
    (ck : List (List Char × List (List Char))) (text url : List Char) :
    List (List Char × List (List Char)) :=
  ck.foldl (fun acc p =>
    if p.2.any (fun kw => containsSub (toLowerL kw) text) then
      addFound acc p.1 (normalize_url url)
    else acc) found

/-- Result of one iteration of the crawl loop: the loop either stops in this
    state (empty frontier, or the `break` on the page limit) or continues. -/
inductive StepRes
  | halt (st : CrawlState)
  | next (st : CrawlState)

/-- One iteration of the `while not queue.empty()` loop of
    `crawl_for_keywords_async`, with the guards in source order: validation,
    depth check, visited check (then mark visited), same-domain check, page
    limit break, fetch, then per-content-type processing and link expansion. -/
def crawlStep (env : List Char → FetchReply) (seed_url : List Char)
    (ck : List (List Char × List (List Char))) (max_depth limit_pages : Nat)
    (st : CrawlState) : StepRes :=
  match st.queue with
  | [] => .halt st
  | (u, depth) :: rest =>
    let st1 := { st with queue := rest, dequeueLog := st.dequeueLog ++ [(u, depth)] }
    match clean_and_validate_url u with
    | none => .next st1
    | some cu =>
      if depth > max_depth then .next st1
      else if cu ∈ st1.visited then .next st1
      else
        let st2 := { st1 with visited := st1.visited ++ [cu] }
        if !(is_same_domain seed_url cu) then .next st2
        else if st2.pagesCrawled ≥ limit_pages then .halt st2
        else
          let st3 := { st2 with fetchLog := st2.fetchLog ++ [cu] }
          match env cu with
          | .exn => .next st3
          | .ok status ct body =>
            if status ≠ 200 then .next st3
            else
              let st4 := { st3 with pagesCrawled := st3.pagesCrawled + 1 }
              let ctl := toLowerL ct
              if containsSub ("pdf").toList ctl then
                let text :=
                  match body with
                  | .pdf d => extract_text_from_pdf d
                  | _ => []
                .next { st4 with found := matchKeywords st4.found ck text cu }
              else if containsSub ("html").toList ctl then
                match body with
                | .html htext links =>
                  let st5 := { st4 with
                    found := matchKeywords st4.found ck (toLowerL htext) cu }
                  if depth < max_depth then
                    let newItems :=
                      (links.filter (fun l => !(st5.visited.contains l))).map
                        (fun l => (l, depth + 1))
                    .next { st5 with queue := st5.queue ++ newItems }
                  else .next st5
                | _ => .next st4
              else .next st4

/-- The crawl loop driven by fuel; any Python execution of the loop performs
    finitely many iterations, and once the queue is empty every further
    iteration is the identity. -/
def crawlLoop (env : List Char → FetchReply) (seed_url : List Char)
    (ck : List (List Char × List (List Char))) (max_depth limit_pages : Nat) :
    Nat → CrawlState → CrawlState
  | 0, st => st
  | fuel + 1, st =>
    match crawlStep env seed_url ck max_depth limit_pages st with
    | .halt st2 => st2
    | .next st2 => crawlLoop env seed_url ck max_depth limit_pages fuel st2

/-- Models `crawl_for_keywords_async` from the source: BFS from the seed at
    depth 0 with empty visited set and empty result sets. -/
def crawl_for_keywords_async (env : List Char → FetchReply) (seed_url : List Char)
    (ck : List (List Char × List (List Char))) (max_depth limit_pages fuel : Nat) :
    CrawlState :=
  crawlLoop env seed_url ck max_depth limit_pages fuel
    ⟨initFound ck, [], [(seed_url, 0)], 0, [], []⟩

theorem hasChar_iff_mem {c : Char} {l : List Char} : hasChar c l = true ↔ c ∈ l := by
  induction l with
  | nil => simp [hasChar]
  | cons x xs ih =>
    by_cases h : x = c
    · subst h
      simp [hasChar]
    · simp [hasChar, h, ih, Ne.symm h]

theorem hasChar_false_of_sublist {c : Char} {a b : List Char} (hs : a.Sublist b)
    (h : hasChar c b = false) : hasChar c a = false := by
  by_contra hc
  have h1 : hasChar c a = true := by simpa using hc
  rw [hasChar_iff_mem] at h1
  have h2 : c ∈ b := hs.subset h1
  rw [← hasChar_iff_mem, h] at h2
  cases h2

theorem stripTrailing_sublist (p : Char → Bool) (l : List Char) :
    (stripTrailing p l).Sublist l := by
  induction l with
  | nil => simp [stripTrailing]
  | cons x xs ih =>
    simp only [stripTrailing]
    by_cases h : stripTrailing p xs = [] ∧ p x
    · rw [if_pos h]
      exact List.nil_sublist _
    · rw [if_neg h]
      exact List.Sublist.cons₂ x ih

theorem pyStrip_sublist (l : List Char) : (pyStrip l).Sublist l :=
  (stripTrailing_sublist _ _).trans (List.dropWhile_sublist _)

theorem mem_parseCell {x s : List Char} (h : x ∈ parseCell s) :
    x ≠ [] ∧ hasChar ';' x = false ∧ pyStrip x = x := by
  unfold parseCell at h
  obtain ⟨hx1, hx2⟩ := List.mem_filter.mp h
  obtain ⟨y, hy, rfl⟩ := List.mem_map.mp hx1
  refine ⟨by simpa using hx2, ?_, pyStrip_idem y⟩
  exact hasChar_false_of_sublist (pyStrip_sublist y) (mem_splitOnChar_not_hasChar hy)

theorem parseCell_joinChar {m : List (List Char)} (hne : m ≠ [])
    (helem : ∀ x ∈ m, x ≠ [] ∧ hasChar ';' x = false ∧ pyStrip x = x) :
    parseCell (joinChar ';' m) = m := by
  unfold parseCell
  rw [splitOnChar_joinChar hne (fun x hx => (helem x hx).2.1)]
  have hmap : m.map pyStrip = m := by
    rw [List.map_congr_left (fun x hx => (helem x hx).2.2)]
    simp
  rw [hmap]
  rw [List.filter_eq_self.mpr]
  intro a ha
  simpa using (helem a ha).1

theorem sortedND_unique {a b : List (List Char)} (ha : SortedND a) (hb : SortedND b)
    (hm : ∀ z, z ∈ a ↔ z ∈ b) : a = b := by
  have hna : a.Nodup := ha.imp (fun h => ne_of_lt h)
  have hnb : b.Nodup := hb.imp (fun h => ne_of_lt h)
  have hperm : a.Perm b := (List.perm_ext_iff_of_nodup hna hnb).mpr hm
  exact List.eq_of_perm_of_sorted hperm ha hb

theorem sortDedup_eq_self {m : List (List Char)} (h : SortedND m) :
    sortDedup m = m :=
  sortedND_unique (sortDedup_pairwise m) h (fun _ => mem_sortDedup)

/-- C4, counterexample: merging is not idempotent as claimed for every
    `CrawlResult` — a found URL containing `;` is re-split on the second
    merge.  Cell `""` merged twice with the singleton result
    `{"http://x.com/a;b"}` differs from merging it once. -/
theorem merge_twice_ne_merge_once :
    updateCell (updateCell (Cell.str []) [("http://x.com/a;b").toList])
        [("http://x.com/a;b").toList] ≠
      updateCell (Cell.str []) [("http://x.com/a;b").toList] := by
  decide

/-- C4 (amended): merging a `CrawlResult` set into a certification cell is
    idempotent provided every found URL is nonempty, `;`-free and
    whitespace-trimmed (normalized http URLs are such): the cell is replaced
    by the `;`-joined sorted union of the stored URLs with the found ones, and
    merging the same set twice equals merging it once; moreover the cell
    `"http://x.com/a"` merged with `{"http://x.com/b"}` becomes
    `"http://x.com/a;http://x.com/b"`. -/
theorem merge_idempotent_sorted :
    (∀ (cell : Cell) (f : List (List Char)),
      (∀ x ∈ f, x ≠ [] ∧ hasChar ';' x = false ∧ pyStrip x = x) →
      updateCell (updateCell cell f) f = updateCell cell f) ∧
    updateCell (Cell.str ("http://x.com/a").toList) [("http://x.com/b").toList] =
      Cell.str ("http://x.com/a;http://x.com/b").toList := by
  constructor
  · intro cell f helem
    by_cases hf : f = []
    · subst hf
      rfl
    · have hstep : ∀ (c2 : Cell), updateCell c2 f =
          .str (joinChar ';' (sortDedup (parseCell (cellStr c2) ++ f))) := by
        intro c2
        unfold updateCell
        rw [if_neg hf]
      rw [hstep cell, hstep (Cell.str (joinChar ';'
        (sortDedup (parseCell (cellStr cell) ++ f))))]
      show Cell.str (joinChar ';' (sortDedup (parseCell (joinChar ';'
        (sortDedup (parseCell (cellStr cell) ++ f))) ++ f))) = _
      have hSorted := sortDedup_pairwise (parseCell (cellStr cell) ++ f)
      have hm_ne : sortDedup (parseCell (cellStr cell) ++ f) ≠ [] := by
        obtain ⟨x, hx⟩ := List.exists_mem_of_ne_nil f hf
        intro hc
        have : x ∈ sortDedup (parseCell (cellStr cell) ++ f) :=
          mem_sortDedup.mpr (List.mem_append_right _ hx)
        rw [hc] at this
        cases this
      have helem_m : ∀ x ∈ sortDedup (parseCell (cellStr cell) ++ f),
          x ≠ [] ∧ hasChar ';' x = false ∧ pyStrip x = x := by
        intro x hx
        rcases List.mem_append.mp (mem_sortDedup.mp hx) with h2 | h2
        · exact mem_parseCell h2
        · exact helem x h2
      rw [parseCell_joinChar hm_ne helem_m]
      rw [sortDedup_append_absorb (by
        intro x hx
        rw [sortDedup_eq_self hSorted]
        exact mem_sortDedup.mpr (List.mem_append_right _ hx))]
      rw [sortDedup_eq_self hSorted]
  · decide

/-- C4, witness: the amended idempotence applied to the concrete cell
    `"http://x.com/a"` and result `{"http://x.com/b"}`. -/
theorem merge_idempotent_sorted_witness :
    updateCell (updateCell (Cell.str ("http://x.com/a").toList)
        [("http://x.com/b").toList]) [("http://x.com/b").toList] =
      updateCell (Cell.str ("http://x.com/a").toList) [("http://x.com/b").toList] :=
  merge_idempotent_sorted.1 _ _ (by decide)

theorem updateCell_nil (c2 : Cell) : updateCell c2 [] = c2 := rfl

/-- C10: for every record row and certification column, a column whose crawl
    result set is empty or absent keeps its previous cell value exactly
    (including non-string values), and only columns whose result set is
    nonempty are rewritten (through the set-union merge).  Mirrors the
    `if found_urls:` guard of `process_df_with_sites`. -/
theorem empty_result_preserves_cell :
    (∀ (row : List (List Char × Cell)) (found : List (List Char × List (List Char)))
      (col : List Char),
      (lookupFound col found = none ∨ lookupFound col found = some []) →
      lookupCol col (applyCrawlResult row found) = lookupCol col row) ∧
    (∀ (row : List (List Char × Cell)) (found : List (List Char × List (List Char)))
      (col : List Char) (urls : List (List Char)),
      lookupFound col found = some urls → urls ≠ [] →
      lookupCol col (applyCrawlResult row found) =
        Option.map (fun c2 => updateCell c2 urls) (lookupCol col row)) := by
  constructor
  · intro row found col h
    induction row with
    | nil => rfl
    | cons p rest ih =>
      simp only [applyCrawlResult, List.map_cons]
      by_cases hac : p.1 = col
      · subst hac
        rcases h with h | h
        · simp only [h]
          simp [lookupCol, List.find?_cons_of_pos, applyCrawlResult]
        · simp only [h]
          simp [lookupCol, List.find?_cons_of_pos, updateCell_nil, applyCrawlResult]
      · have hb : (p.1 == col) = false := by simpa using hac
        cases hlf : lookupFound p.1 found with
        | none =>
          simp only [hlf]
          simp only [lookupCol, List.find?_cons, hb]
          exact ih
        | some urls =>
          simp only [hlf]
          simp only [lookupCol, List.find?_cons, hb]
          exact ih
  · intro row found col urls hf hne
    induction row with
    | nil => rfl
    | cons p rest ih =>
      simp only [applyCrawlResult, List.map_cons]
      by_cases hac : p.1 = col
      · subst hac
        simp only [hf]
        simp [lookupCol, List.find?_cons_of_pos, applyCrawlResult]
      · have hb : (p.1 == col) = false := by simpa using hac
        cases hlf : lookupFound p.1 found with
        | none =>
          simp only [hlf]
          simp only [lookupCol, List.find?_cons, hb]
          exact ih
        | some urls2 =>
          simp only [hlf]
          simp only [lookupCol, List.find?_cons, hb]
          exact ih

/-- C10, witness: a two-column row where the crawl found nothing for the
    `BAP Cert` column (its cell, a non-string, is preserved) and one URL for
    `ASC Cert`. -/
theorem empty_result_preserves_cell_witness :
    lookupCol ("BAP Cert").toList
      (applyCrawlResult
        [(("ASC Cert").toList, Cell.str []), (("BAP Cert").toList, Cell.other)]
        [(("ASC Cert").toList, [("http://x.com/a").toList]),
         (("BAP Cert").toList, [])]) =
      lookupCol ("BAP Cert").toList
        [(("ASC Cert").toList, Cell.str []), (("BAP Cert").toList, Cell.other)] :=
  empty_result_preserves_cell.1 _ _ _ (Or.inr (by decide))

theorem fetchAux_all_retry (outs : Nat → AttemptOutcome) :
    ∀ r a, (∀ i, a ≤ i → i < a + r →
        ∃ s ct bv tv, outs i = .resp s ct bv tv ∧ (s = 429 ∨ s = 503)) →
      fetchAux outs r a =
        ⟨none, none, (List.range' a r).map (fun i => min (2 ^ i) 8), r⟩ := by
  intro r
  induction r with
  | zero => intro a _; rfl
  | succ r ih =>
    intro a h
    obtain ⟨s, ct, bv, tv, houts, hs⟩ := h a (le_refl a) (by omega)
    have hs200 : ¬ s = 200 := by rcases hs with rfl | rfl <;> omega
    simp only [fetchAux, houts, if_neg hs200, if_pos hs]
    rw [ih (a + 1) (fun i h1 h2 => h i (by omega) (by omega))]
    rw [List.range'_succ a r 1]
    rfl

theorem fetchAux_all_exn (outs : Nat → AttemptOutcome) :
    ∀ r a, 1 ≤ r → (∀ i, a ≤ i → i < a + r → outs i = .exn) →
      fetchAux outs r a = ⟨none, none, List.replicate (r - 1) 1, r⟩ := by
  intro r
  induction r with
  | zero => omega
  | succ r ih =>
    intro a _ h
    have houts : outs a = .exn := h a (le_refl a) (by omega)
    by_cases hr0 : r = 0
    · subst hr0
      simp only [fetchAux, houts, if_pos rfl]
      rfl
    · simp only [fetchAux, houts, if_neg hr0]
      rw [ih (a + 1) (by omega) (fun i h1 h2 => h i (by omega) (by omega))]
      have h2 : (1 : Nat) :: List.replicate (r - 1) 1 = List.replicate r 1 := by
        cases r with
        | zero => omega
        | succ k =>
          rw [List.replicate_succ]
          simp
      simp only [Nat.add_sub_cancel, h2]

/-- C5: contract of `fetch_with_retry`.  (1) When every attempt returns 429 or
    503, each attempt sleeps `min(2^attempt, 8)` seconds and after
    `max_retries` attempts the call fails with `(None, None)`.  (2) A first
    response with any other non-200 status fails immediately: one attempt, no
    sleep.  (3) When every attempt raises a timeout or transport error, each
    non-final attempt sleeps a flat 1 second and after `max_retries` attempts
    the call fails.  (4) A first response with status 200 returns the body —
    bytes when the (lower-cased) content type contains `pdf`, text otherwise —
    together with that content type, with no sleep. -/
theorem retry_fetcher_contract :
    (∀ (outs : Nat → AttemptOutcome) (max_retries : Nat), 1 ≤ max_retries →
      (∀ i, i < max_retries →
        ∃ s ct bv tv, outs i = .resp s ct bv tv ∧ (s = 429 ∨ s = 503)) →
      fetch_with_retry outs max_retries =
        ⟨none, none, (List.range max_retries).map (fun i => min (2 ^ i) 8),
         max_retries⟩) ∧
    (∀ (outs : Nat → AttemptOutcome) (max_retries s : Nat)
      (ct : List Char) (bv : List Nat) (tv : List Char), 1 ≤ max_retries →
      outs 0 = .resp s ct bv tv → s ≠ 200 → s ≠ 429 → s ≠ 503 →
      fetch_with_retry outs max_retries = ⟨none, none, [], 1⟩) ∧
    (∀ (outs : Nat → AttemptOutcome) (max_retries : Nat), 1 ≤ max_retries →
      (∀ i, i < max_retries → outs i = .exn) →
      fetch_with_retry outs max_retries =
        ⟨none, none, List.replicate (max_retries - 1) 1, max_retries⟩) ∧
    (∀ (outs : Nat → AttemptOutcome) (max_retries : Nat)
      (ct : List Char) (bv : List Nat) (tv : List Char), 1 ≤ max_retries →
      outs 0 = .resp 200 ct bv tv →
      fetch_with_retry outs max_retries =
        ⟨some (if containsSub ("pdf").toList (toLowerL ct) then FetchContent.bytes bv
               else FetchContent.txt tv),
         some (toLowerL ct), [], 1⟩) := by
  refine ⟨?_, ?_, ?_, ?_⟩
  · intro outs mr _ h
    unfold fetch_with_retry
    rw [fetchAux_all_retry outs mr 0 (fun i h1 h2 => h i (by omega))]
    rw [List.range_eq_range' mr]
  · intro outs mr s ct bv tv hmr h0 h200 h429 h503
    unfold fetch_with_retry
    cases mr with
    | zero => omega
    | succ r =>
      simp only [fetchAux, h0, if_neg h200]
      rw [if_neg (by tauto)]
  · intro outs mr hmr h
    unfold fetch_with_retry
    exact fetchAux_all_exn outs mr 0 hmr (fun i h1 h2 => h i (by omega))
  · intro outs mr ct bv tv hmr h0
    unfold fetch_with_retry
    cases mr with
    | zero => omega
    | succ r =>
      simp [fetchAux, h0]

/-- C5, witness: the four contract clauses at concrete attempt streams with
    `max_retries = 3`: all-429 (sleeps 1s, 2s, 4s), first-404, all-timeouts
    (two 1s sleeps), and a first 200 PDF response. -/
theorem retry_fetcher_contract_witness :
    fetch_with_retry (fun _ => .resp 429 [] [] []) 3 = ⟨none, none, [1, 2, 4], 3⟩ ∧
    fetch_with_retry (fun _ => .resp 404 [] [] []) 3 = ⟨none, none, [], 1⟩ ∧
    fetch_with_retry (fun _ => .exn) 3 = ⟨none, none, [1, 1], 3⟩ ∧
    fetch_with_retry (fun _ => .resp 200 (("application/pdf").toList) [7] []) 3 =
      ⟨some (FetchContent.bytes [7]), some (("application/pdf").toList), [], 1⟩ := by
  refine ⟨?_, ?_, ?_, ?_⟩
  · exact (retry_fetcher_contract.1 _ 3 (by omega)
      (fun i _ => ⟨429, [], [], [], rfl, Or.inl rfl⟩)).trans (by decide)
  · exact retry_fetcher_contract.2.1 _ 3 404 [] [] [] (by omega) rfl
      (by omega) (by omega) (by omega)
  · exact (retry_fetcher_contract.2.2.1 _ 3 (by omega) (fun i _ => rfl)).trans
      (by decide)
  · exact (retry_fetcher_contract.2.2.2 _ 3 (("application/pdf").toList) [7] []
      (by omega) rfl).trans (by decide)

/-- A page that contributes text: `extract_text()` succeeded and the text is
    nonempty (`if page_text:`). -/
def pageOk : PageOutcome → Option (List Char)
  | .text t => if t = [] then none else some t
  | .errPage => none

theorem take_min_length (l : List PageOutcome) (k : Nat) :
    l.take (min l.length k) = l.take k := by
  rcases le_total l.length k with h | h
  · rw [min_eq_left h, List.take_length, List.take_of_length_le h]
  · rw [min_eq_right h]

theorem pdf_fold_lower (ps : List PageOutcome) :
    ∀ acc, toLowerL (ps.foldl (fun acc p =>
        match p with
        | .text t => if t ≠ [] then acc ++ ' ' :: t else acc
        | .errPage => acc) acc) =
      (ps.filterMap pageOk).foldl (fun acc t => acc ++ ' ' :: toLowerL t)
        (toLowerL acc) := by
  induction ps with
  | nil => intro acc; simp
  | cons p rest ih =>
    intro acc
    cases p with
    | errPage =>
      simp only [List.foldl_cons, List.filterMap_cons]
      exact ih acc
    | text t =>
      by_cases ht : t = []
      · subst ht
        simp only [List.foldl_cons, List.filterMap_cons, pageOk]
        simpa using ih acc
      · have hsp : pyLower ' ' = ' ' := by decide
        simp only [List.foldl_cons, List.filterMap_cons, pageOk, if_neg ht,
          if_pos ht]
        rw [ih (acc ++ ' ' :: t)]
        have : toLowerL (acc ++ ' ' :: t) = toLowerL acc ++ ' ' :: toLowerL t := by
          unfold toLowerL
          rw [List.map_append, List.map_cons, hsp]
        rw [this]

/-- C9: `extract_text_from_pdf` rejects bodies over 10 MB outright, yielding
    empty text; otherwise (for readable PDFs) it extracts at most the first 50
    pages, skipping pages whose extraction raises (and empty pages),
    concatenating the read page texts with spaces and lower-casing the result;
    consequently no nonempty keyword ever matches an oversized PDF, so such a
    PDF contributes no evidence URL. -/
theorem pdf_extraction_caps :
    (∀ d : PdfDoc, d.size > 10 * 1024 * 1024 → extract_text_from_pdf d = []) ∧
    (∀ d : PdfDoc, d.size ≤ 10 * 1024 * 1024 → d.readable = true →
      extract_text_from_pdf d =
        ((d.pages.take 50).filterMap pageOk).foldl
          (fun acc t => acc ++ ' ' :: toLowerL t) []) ∧
    (∀ (d : PdfDoc) (kw : List Char), d.size > 10 * 1024 * 1024 → kw ≠ [] →
      containsSub kw (extract_text_from_pdf d) = false) := by
  have h1 : ∀ d : PdfDoc, d.size > 10 * 1024 * 1024 →
      extract_text_from_pdf d = [] := by
    intro d hd
    unfold extract_text_from_pdf
    rw [if_pos hd]
  refine ⟨h1, ?_, ?_⟩
  · intro d hd hr
    unfold extract_text_from_pdf
    rw [if_neg (by omega), if_neg (by simp [hr])]
    unfold pdfPagesText
    rw [take_min_length]
    rw [pdf_fold_lower]
    rfl
  · intro d kw hd hkw
    rw [h1 d hd]
    exact containsSub_nil_false hkw

/-- C9, witness: the caps applied to a 12 MB PDF containing only the page text
    `BAP` (extraction yields nothing and the keyword `bap` does not match) and
    the page loop applied to a small readable PDF with one good page, one
    failing page and one empty page. -/
theorem pdf_extraction_caps_witness :
    extract_text_from_pdf ⟨12 * 1024 * 1024, true, [.text ("BAP").toList]⟩ = [] ∧
    containsSub ("bap").toList
      (extract_text_from_pdf ⟨12 * 1024 * 1024, true, [.text ("BAP").toList]⟩) =
      false ∧
    extract_text_from_pdf ⟨100, true, [.text ("BAP").toList, .errPage, .text []]⟩ =
      (' ' :: ("bap").toList) := by
  refine ⟨?_, ?_, ?_⟩
  · exact pdf_extraction_caps.1 _ (by decide)
  · exact pdf_extraction_caps.2.2 _ _ (by decide) (by decide)
  · exact (pdf_extraction_caps.2.1 _ (by decide) rfl).trans (by decide)

/-- The state carried by a step result. -/
def StepRes.state : StepRes → CrawlState
  | .halt st => st
  | .next st => st

/-- The HTTP status of a reply, `none` for a raised exception. -/
def statusOf : FetchReply → Option Nat
  | .ok s _ _ => some s
  | .exn => none

theorem initFound_all_nil (ck : List (List Char × List (List Char))) :
    ∀ p ∈ initFound ck, p.2 = ([] : List (List Char)) := by
  intro p hp
  unfold initFound at hp
  obtain ⟨q, _, rfl⟩ := List.mem_map.mp hp
  rfl

theorem crawlLoop_inv (env : List Char → FetchReply) (seed : List Char)
    (ck : List (List Char × List (List Char))) (d L : Nat) (P : CrawlState → Prop)
    (hstep : ∀ st r, crawlStep env seed ck d L st = r → P st → P (StepRes.state r)) :
    ∀ fuel st, P st → P (crawlLoop env seed ck d L fuel st) := by
  intro fuel
  induction fuel with
  | zero => intro st h; exact h
  | succ n ih =>
    intro st h
    rw [crawlLoop]
    cases hr : crawlStep env seed ck d L st with
    | halt st2 =>
      have h2 := hstep st _ hr h
      simpa [StepRes.state] using h2
    | next st2 =>
      exact ih st2 (by simpa [StepRes.state] using hstep st _ hr h)

theorem crawlLoop_queue_nil (env : List Char → FetchReply) (seed : List Char)
    (ck : List (List Char × List (List Char))) (d L : Nat) :
    ∀ (fuel : Nat) (st : CrawlState), st.queue = [] →
      crawlLoop env seed ck d L fuel st = st := by
  intro fuel st h
  cases fuel with
  | zero => rfl
  | succ n =>
    rw [crawlLoop]
    have h2 : crawlStep env seed ck d L st = .halt st := by
      unfold crawlStep
      rw [h]
    rw [h2]

theorem crawlStep_pages (env : List Char → FetchReply) (seed : List Char)
    (ck : List (List Char × List (List Char))) (d L : Nat) (st : CrawlState) :
    ∀ r, crawlStep env seed ck d L st = r →
    st.pagesCrawled ≤ L → (StepRes.state r).pagesCrawled ≤ L := by
  intro r hr h
  unfold crawlStep at hr
  dsimp only at hr
  repeat' split at hr
  all_goals subst hr
  all_goals simp_all [StepRes.state]
  all_goals omega

/-- C3 (amended): the page counter `pages_crawled` — which counts only
    status-200 fetches — never exceeds the configured page limit; the
    counterexample shows raw HTTP fetch attempts can exceed the limit when
    responses are non-200, since such attempts are not counted. -/
theorem pages_crawled_never_exceeds_limit (env : List Char → FetchReply)
    (seed : List Char) (ck : List (List Char × List (List Char)))
    (d L fuel : Nat) :
    (crawl_for_keywords_async env seed ck d L fuel).pagesCrawled ≤ L := by
  unfold crawl_for_keywords_async
  exact crawlLoop_inv env seed ck d L (fun s => s.pagesCrawled ≤ L)
    (fun st r hr h => crawlStep_pages env seed ck d L st r hr h) fuel _ (Nat.zero_le L)

/-- C3, counterexample: with page limit 2, a seed page (200) linking to three
    pages that all return 404 yields 4 HTTP fetch attempts — the claim that
    total fetch attempts never exceed the limit regardless of non-200
    responses is false, because only 200 responses are counted. -/
theorem fetch_attempts_exceed_limit :
    2 < (crawl_for_keywords_async
      (fun u => if u = ("http://x.com").toList then
          FetchReply.ok 200 (("text/html").toList) (Body.html []
            [("http://x.com/a").toList, ("http://x.com/b").toList,
             ("http://x.com/c").toList])
        else FetchReply.ok 404 (("text/html").toList) (Body.html [] []))
      (("http://x.com").toList) [(("ASC Cert").toList, [("ASC").toList])]
      2 2 10).fetchLog.length := by
  decide

theorem log_extend {log visited : List (List Char)} {cu : List Char}
    (h1 : log.Nodup) (h2 : ∀ u ∈ log, u ∈ visited) (h3 : cu ∉ visited) :
    (log ++ [cu]).Nodup ∧ ∀ u, u ∈ log ∨ u = cu → u ∈ visited ∨ u = cu := by
  constructor
  · refine List.Nodup.append h1 (List.nodup_singleton cu) ?_
    intro a ha hb
    simp at hb
    subst hb
    exact h3 (h2 a ha)
  · rintro u (hu | rfl)
    · exact Or.inl (h2 u hu)
    · exact Or.inr rfl

theorem crawlStep_log (env : List Char → FetchReply) (seed : List Char)
    (ck : List (List Char × List (List Char))) (d L : Nat) (st : CrawlState) :
    ∀ r, crawlStep env seed ck d L st = r →
    (st.fetchLog.Nodup ∧ ∀ u ∈ st.fetchLog, u ∈ st.visited) →
    ((StepRes.state r).fetchLog.Nodup ∧
      ∀ u ∈ (StepRes.state r).fetchLog, u ∈ (StepRes.state r).visited) := by
  intro r hr h
  obtain ⟨h1, h2⟩ := h
  unfold crawlStep at hr
  dsimp only at hr
  repeat' split at hr
  all_goals subst hr
  all_goals simp_all [StepRes.state]
  all_goals exact log_extend h1 h2 (by assumption)

/-- C2 (amended): deduplication keys are the cleaned/validated URLs, not the
    normalized ones: the engine adds `clean_and_validate_url(url)` to the
    visited set before fetching and never fetches a URL already in it, so each
    distinct cleaned URL is fetched at most once per traversal (the fetch log
    has no duplicates), even with cyclic links; two URLs with equal normalized
    but distinct cleaned forms may however both be fetched. -/
theorem fetch_log_nodup (env : List Char → FetchReply) (seed : List Char)
    (ck : List (List Char × List (List Char))) (d L fuel : Nat) :
    (crawl_for_keywords_async env seed ck d L fuel).fetchLog.Nodup := by
  unfold crawl_for_keywords_async
  exact (crawlLoop_inv env seed ck d L
    (fun s => s.fetchLog.Nodup ∧ ∀ u ∈ s.fetchLog, u ∈ s.visited)
    (fun st r hr h => crawlStep_log env seed ck d L st r hr h) fuel _
    ⟨List.nodup_nil, by simp⟩).1

/-- C2, counterexample: `http://x.com/a` and `http://x.com/a/` have equal
    normalized forms, yet a traversal whose seed links to both fetches both —
    the visited set stores the cleaned, not the normalized, URL. -/
theorem equal_normalized_urls_both_fetched :
    normalize_url (("http://x.com/a").toList) =
      normalize_url (("http://x.com/a/").toList) ∧
    ("http://x.com/a").toList ≠ ("http://x.com/a/").toList ∧
    (("http://x.com/a").toList ∈ (crawl_for_keywords_async
      (fun u => if u = ("http://x.com").toList then
          FetchReply.ok 200 (("text/html").toList) (Body.html []
            [("http://x.com/a").toList, ("http://x.com/a/").toList])
        else FetchReply.ok 200 (("text/html").toList) (Body.html [] []))
      (("http://x.com").toList) [(("ASC Cert").toList, [("ASC").toList])]
      2 50 10).fetchLog ∧
    ("http://x.com/a/").toList ∈ (crawl_for_keywords_async
      (fun u => if u = ("http://x.com").toList then
          FetchReply.ok 200 (("text/html").toList) (Body.html []
            [("http://x.com/a").toList, ("http://x.com/a/").toList])
        else FetchReply.ok 200 (("text/html").toList) (Body.html [] []))
      (("http://x.com").toList) [(("ASC Cert").toList, [("ASC").toList])]
      2 50 10).fetchLog) := by
  refine ⟨by decide, by decide, by decide, by decide⟩

theorem crawlStep_init_429 (env : List Char → FetchReply) (seed : List Char)
    (ck : List (List Char × List (List Char))) (d L : Nat)
    (h429 : ∀ u, statusOf (env u) = some 429) :
    ∀ r, crawlStep env seed ck d L ⟨initFound ck, [], [(seed, 0)], 0, [], []⟩ = r →
      (StepRes.state r).queue = [] ∧ (StepRes.state r).found = initFound ck ∧
      (StepRes.state r).pagesCrawled = 0 ∧ (StepRes.state r).fetchLog.length ≤ 1 := by
  intro r hr
  unfold crawlStep at hr
  dsimp only at hr
  cases hclean : clean_and_validate_url seed with
  | none =>
    rw [hclean] at hr
    subst hr
    simp [StepRes.state]
  | some cu =>
    rw [hclean] at hr
    simp only [Nat.not_lt_zero, List.not_mem_nil, if_false] at hr
    by_cases hdom : is_same_domain seed cu = true
    · rw [hdom] at hr
      simp only [Bool.not_true, Bool.false_eq_true, if_false] at hr
      by_cases hlim : (0 : Nat) ≥ L
      · rw [if_pos hlim] at hr
        subst hr
        simp [StepRes.state]
      · rw [if_neg hlim] at hr
        have h5 := h429 cu
        cases henv : env cu with
        | exn =>
          rw [henv] at h5
          simp [statusOf] at h5
        | ok s ct b =>
          rw [henv] at h5
          simp only [statusOf, Option.some.injEq] at h5
          subst h5
          rw [henv] at hr
          dsimp only at hr
          rw [if_pos (by omega : (429 : Nat) ≠ 200)] at hr
          subst hr
          simp [StepRes.state]
    · have hdom2 : is_same_domain seed cu = false := by
        simpa using hdom
      rw [hdom2] at hr
      simp only [Bool.not_false, if_true] at hr
      subst hr
      simp [StepRes.state]

/-- C1 (amended): when every fetch of the (cleaned) seed returns HTTP 429, the
    engine — which calls `session.get` directly; `fetch_with_retry` is defined
    in the source but never invoked by the crawl loop — skips the seed after a
    single attempt with no retry and no backoff sleep, and the crawl returns a
    result mapping every certification kind to the empty set, with zero pages
    counted as crawled and at most one fetch attempt issued; no exception
    escapes (the model is total). -/
theorem seed_429_crawl_empty (env : List Char → FetchReply) (seed : List Char)
    (ck : List (List Char × List (List Char))) (d L fuel : Nat)
    (hfuel : 1 ≤ fuel) (h429 : ∀ u, statusOf (env u) = some 429) :
    (∀ p ∈ (crawl_for_keywords_async env seed ck d L fuel).found,
      p.2 = ([] : List (List Char))) ∧
    (crawl_for_keywords_async env seed ck d L fuel).pagesCrawled = 0 ∧
    (crawl_for_keywords_async env seed ck d L fuel).fetchLog.length ≤ 1 := by
  obtain ⟨n, rfl⟩ : ∃ n, fuel = n + 1 := ⟨fuel - 1, by omega⟩
  unfold crawl_for_keywords_async
  rw [crawlLoop]
  cases hr : crawlStep env seed ck d L ⟨initFound ck, [], [(seed, 0)], 0, [], []⟩ with
  | halt st2 =>
    dsimp only
    have hp := crawlStep_init_429 env seed ck d L h429 _ hr
    simp only [StepRes.state] at hp
    refine ⟨?_, hp.2.2.1, hp.2.2.2⟩
    rw [hp.2.1]
    exact initFound_all_nil ck
  | next st2 =>
    dsimp only
    have hp := crawlStep_init_429 env seed ck d L h429 _ hr
    simp only [StepRes.state] at hp
    rw [crawlLoop_queue_nil env seed ck d L n st2 hp.1]
    refine ⟨?_, hp.2.2.1, hp.2.2.2⟩
    rw [hp.2.1]
    exact initFound_all_nil ck

/-- C1, witness: the amended statement at a concrete all-429 environment. -/
theorem seed_429_crawl_empty_witness :
    (∀ p ∈ (crawl_for_keywords_async (fun _ => FetchReply.ok 429 [] Body.otherBody)
      (("http://x.com").toList) [(("ASC Cert").toList, [("ASC").toList])]
      2 50 10).found, p.2 = ([] : List (List Char))) ∧
    (crawl_for_keywords_async (fun _ => FetchReply.ok 429 [] Body.otherBody)
      (("http://x.com").toList) [(("ASC Cert").toList, [("ASC").toList])]
      2 50 10).pagesCrawled = 0 ∧
    (crawl_for_keywords_async (fun _ => FetchReply.ok 429 [] Body.otherBody)
      (("http://x.com").toList) [(("ASC Cert").toList, [("ASC").toList])]
      2 50 10).fetchLog.length ≤ 1 :=
  seed_429_crawl_empty _ _ _ 2 50 10 (by omega) (fun u => rfl)

/-- C1, counterexample: on an all-429 environment the crawl issues exactly one
    HTTP attempt for the seed — not the three retry attempts with 1s, 2s, 4s
    backoff the claim ascribes to the engine's fetch path (the retry fetcher
    is not wired into the crawl loop). -/
theorem seed_429_single_attempt :
    (crawl_for_keywords_async (fun _ => FetchReply.ok 429 [] Body.otherBody)
      (("http://x.com").toList) [(("ASC Cert").toList, [("ASC").toList])]
      2 50 10).fetchLog.length = 1 := by
  decide

/-- Link-reachability in `k` steps from the seed: pages expand through their
    cleaned URL when the environment returns a 200 HTML-classified response,
    exactly as the crawl loop follows hyperlinks. -/
inductive ReachN (env : List Char → FetchReply) (seed : List Char) : Nat → List Char → Prop
  | base : ReachN env seed 0 seed
  | step {k : Nat} {u cu ct htext v : List Char} {links : List (List Char)} :
      ReachN env seed k u →
      clean_and_validate_url u = some cu →
      env cu = .ok 200 ct (.html htext links) →
      containsSub ("pdf").toList (toLowerL ct) = false →
      containsSub ("html").toList (toLowerL ct) = true →
      v ∈ links →
      ReachN env seed (k + 1) v

/-- The depth/reachability invariant of the crawl loop: every frontier item is
    within the depth bound and link-reachable at its recorded depth, every
    dequeued item was within the bound, and every fetched URL is the cleaned
    form of a URL link-reachable within the bound. -/
def DepthInv (env : List Char → FetchReply) (seed : List Char) (d : Nat)
    (st : CrawlState) : Prop :=
  (∀ p ∈ st.queue, p.2 ≤ d ∧ ReachN env seed p.2 p.1) ∧
  (∀ p ∈ st.dequeueLog, p.2 ≤ d) ∧
  (∀ c ∈ st.fetchLog, ∃ raw k, k ≤ d ∧ ReachN env seed k raw ∧
     clean_and_validate_url raw = some c)

theorem crawlStep_depth (env : List Char → FetchReply) (seed : List Char)
    (ck : List (List Char × List (List Char))) (d L : Nat) (st : CrawlState) :
    ∀ r, crawlStep env seed ck d L st = r →
    DepthInv env seed d st → DepthInv env seed d (StepRes.state r) := by
  intro r hr h
  obtain ⟨h1, h2, h3⟩ := h
  unfold crawlStep at hr
  cases hqueue : st.queue with
  | nil =>
    rw [hqueue] at hr
    subst hr
    exact ⟨h1, h2, h3⟩
  | cons hd rest =>
    obtain ⟨u, depth⟩ := hd
    rw [hqueue] at hr
    dsimp only at hr
    have hhead : depth ≤ d ∧ ReachN env seed depth u := by
      have := h1 (u, depth) (by rw [hqueue]; exact List.mem_cons_self _ _)
      exact this
    have hq1 : ∀ p ∈ rest, p.2 ≤ d ∧ ReachN env seed p.2 p.1 := by
      intro p hp
      exact h1 p (by rw [hqueue]; exact List.mem_cons_of_mem _ hp)
    have hd1 : ∀ p ∈ st.dequeueLog ++ [(u, depth)], p.2 ≤ d := by
      intro p hp
      rcases List.mem_append.mp hp with hp | hp
      · exact h2 p hp
      · simp at hp
        subst hp
        exact hhead.1
    cases hclean : clean_and_validate_url u with
    | none =>
      rw [hclean] at hr
      dsimp only at hr
      subst hr
      exact ⟨hq1, hd1, h3⟩
    | some cu =>
      rw [hclean] at hr
      dsimp only at hr
      by_cases hdep : depth > d
      · rw [if_pos hdep] at hr
        subst hr
        exact ⟨hq1, hd1, h3⟩
      · rw [if_neg hdep] at hr
        by_cases hvis : cu ∈ st.visited
        · rw [if_pos hvis] at hr
          subst hr
          exact ⟨hq1, hd1, h3⟩
        · rw [if_neg hvis] at hr
          by_cases hdom : is_same_domain seed cu = true
          · rw [hdom] at hr
            simp only [Bool.not_true, Bool.false_eq_true, if_false] at hr
            by_cases hlim : st.pagesCrawled ≥ L
            · rw [if_pos hlim] at hr
              subst hr
              exact ⟨hq1, hd1, h3⟩
            · rw [if_neg hlim] at hr
              have hf1 : ∀ c ∈ st.fetchLog ++ [cu],
                  ∃ raw k, k ≤ d ∧ ReachN env seed k raw ∧
                    clean_and_validate_url raw = some c := by
                intro c hc
                rcases List.mem_append.mp hc with hc | hc
                · exact h3 c hc
                · simp at hc
                  subst hc
                  exact ⟨u, depth, hhead.1, hhead.2, hclean⟩
              cases henv : env cu with
              | exn =>
                rw [henv] at hr
                dsimp only at hr
                subst hr
                exact ⟨hq1, hd1, hf1⟩
              | ok status ct body =>
                rw [henv] at hr
                dsimp only at hr
                by_cases hst : status ≠ 200
                · rw [if_pos hst] at hr
                  subst hr
                  exact ⟨hq1, hd1, hf1⟩
                · rw [if_neg hst] at hr
                  have hst2 : status = 200 := by omega
                  subst hst2
                  by_cases hpdf : containsSub ("pdf").toList (toLowerL ct) = true
                  · rw [if_pos hpdf] at hr
                    subst hr
                    exact ⟨hq1, hd1, hf1⟩
                  · rw [if_neg hpdf] at hr
                    have hpdf2 : containsSub ("pdf").toList (toLowerL ct) = false := by
                      simpa using hpdf
                    by_cases hhtml : containsSub ("html").toList (toLowerL ct) = true
                    · rw [if_pos hhtml] at hr
                      cases body with
                      | html htext links =>
                        dsimp only at hr
                        by_cases hdlt : depth < d
                        · rw [if_pos hdlt] at hr
                          subst hr
                          refine ⟨?_, hd1, hf1⟩
                          intro p hp
                          rcases List.mem_append.mp hp with hp | hp
                          · exact hq1 p hp
                          · obtain ⟨l, hl, rfl⟩ := List.mem_map.mp hp
                            have hlinks : l ∈ links := List.mem_of_mem_filter hl
                            refine ⟨by omega, ?_⟩
                            exact ReachN.step hhead.2 hclean henv hpdf2 hhtml hlinks
                        · rw [if_neg hdlt] at hr
                          subst hr
                          exact ⟨hq1, hd1, hf1⟩
                      | pdf doc =>
                        dsimp only at hr
                        subst hr
                        exact ⟨hq1, hd1, hf1⟩
                      | otherBody =>
                        dsimp only at hr
                        subst hr
                        exact ⟨hq1, hd1, hf1⟩
                    · have hhtml2 : containsSub ("html").toList (toLowerL ct) = false := by
                        simpa using hhtml
                      rw [hhtml2] at hr
                      simp only [Bool.false_eq_true, if_false] at hr
                      subst hr
                      exact ⟨hq1, hd1, hf1⟩
          · have hdom2 : is_same_domain seed cu = false := by
              simpa using hdom
            rw [hdom2] at hr
            simp only [Bool.not_false, if_true] at hr
            subst hr
            exact ⟨hq1, hd1, h3⟩

/-- C8: for every site crawl with maximum depth d, every (url, depth) item
    ever dequeued from the frontier has depth ≤ d (the seed starts at 0 and
    links are enqueued at depth+1 only from pages at depth < d), and every
    fetched URL is the cleaned form of a URL whose link-distance from the seed
    is at most d (witnessed by a chain of at most d hyperlink steps). -/
theorem depth_bound_holds (env : List Char → FetchReply) (seed : List Char)
    (ck : List (List Char × List (List Char))) (d L fuel : Nat) :
    (∀ p ∈ (crawl_for_keywords_async env seed ck d L fuel).dequeueLog, p.2 ≤ d) ∧
    (∀ c ∈ (crawl_for_keywords_async env seed ck d L fuel).fetchLog,
      ∃ raw k, k ≤ d ∧ ReachN env seed k raw ∧
        clean_and_validate_url raw = some c) := by
  unfold crawl_for_keywords_async
  have h := crawlLoop_inv env seed ck d L (DepthInv env seed d)
    (fun st r hr hP => crawlStep_depth env seed ck d L st r hr hP) fuel
    ⟨initFound ck, [], [(seed, 0)], 0, [], []⟩
    ⟨by
      intro p hp
      simp at hp
      subst hp
      exact ⟨Nat.zero_le d, ReachN.base⟩,
     by simp, by simp⟩
  exact ⟨h.2.1, h.2.2⟩

theorem splitLastSlash_eq {p pre seg : List Char}
    (h : splitLastSlash p = some (pre, seg)) : p = pre ++ '/' :: seg := by
  induction p generalizing pre seg with
  | nil => cases h
  | cons x xs ih =>
    simp only [splitLastSlash] at h
    cases hs : splitLastSlash xs with
    | some pr2 =>
      obtain ⟨a, b⟩ := pr2
      rw [hs] at h
      simp only [Option.some.injEq, Prod.mk.injEq] at h
      obtain ⟨rfl, rfl⟩ := h
      rw [show xs = a ++ '/' :: b from ih hs]
      rfl
    | none =>
      rw [hs] at h
      by_cases hx : x = '/'
      · rw [if_pos hx] at h
        simp only [Option.some.injEq, Prod.mk.injEq] at h
        obtain ⟨rfl, rfl⟩ := h
        rw [hx]
        rfl
      · rw [if_neg hx] at h
        cases h

theorem stripIndex_sublist (p : List Char) : (stripIndex p).Sublist p := by
  unfold stripIndex
  split
  · cases hs : splitLastSlash p with
    | some pr2 =>
      obtain ⟨pre, seg⟩ := pr2
      have hdec := splitLastSlash_eq hs
      conv_rhs => rw [hdec]
      exact List.sublist_append_left pre ('/' :: seg)
    | none => exact List.Sublist.refl p
  · exact List.Sublist.refl p

theorem stripSlash_sublist (p : List Char) : (stripSlash p).Sublist p := by
  unfold stripSlash
  split
  · exact List.dropLast_sublist p
  · exact List.Sublist.refl p

theorem takeWhile_append_all {p : Char → Bool} (n tail : List Char)
    (hn : ∀ c ∈ n, p c = true)
    (ht : match tail with | [] => True | c :: _ => p c = false) :
    (n ++ tail).takeWhile p = n ∧ (n ++ tail).dropWhile p = tail := by
  induction n with
  | nil =>
    cases tail with
    | nil => exact ⟨rfl, rfl⟩
    | cons c t =>
      simp only [List.nil_append]
      exact ⟨List.takeWhile_cons_of_neg (by simp [ht]),
        List.dropWhile_cons_of_neg (by simp [ht])⟩
  | cons x xs ih =>
    have hx : p x = true := hn x (List.mem_cons_self x xs)
    obtain ⟨ih1, ih2⟩ := ih (fun c hc => hn c (List.mem_cons_of_mem x hc))
    simp only [List.cons_append]
    constructor
    · rw [List.takeWhile_cons_of_pos hx, ih1]
    · rw [List.dropWhile_cons_of_pos hx, ih2]

theorem splitScheme_round {s : List Char} (rest : List Char) (hs : s ≠ [])
    (h1 : (s.headD ' ').isAlpha = true) (h2 : s.all schemeChar = true)
    (h3 : toLowerL s = s) (hcol : hasChar ':' s = false) :
    splitScheme (s ++ ':' :: rest) = (s, rest) := by
  unfold splitScheme
  have hc : hasChar ':' (s ++ ':' :: rest) = true := by
    rw [hasChar_append]
    simp [hasChar_cons_self]
  rw [if_pos hc]
  rw [splitAtFirst_append rest hcol]
  dsimp only
  rw [if_pos ⟨hs, h1, h2⟩]
  rw [h3]

theorem urlparse_urlunparse {s n p pa q : List Char}
    (hs_ne : s ≠ []) (hs_alpha : (s.headD ' ').isAlpha = true)
    (hs_chars : s.all schemeChar = true) (hs_lower : toLowerL s = s)
    (hs_colon : hasChar ':' s = false)
    (hn_ne : n ≠ []) (hn_stop : ∀ c ∈ n, stopChar c = false)
    (hp_head : p = [] ∨ p.take 1 = ['/'])
    (hpa_imp : pa = [] ∨ p ≠ [])
    (hp_hash : hasChar '#' p = false) (hpa_hash : hasChar '#' pa = false)
    (hq_hash : hasChar '#' q = false)
    (hp_q : hasChar '?' p = false) (hpa_q : hasChar '?' pa = false)
    (hparams : splitParams (if pa ≠ [] then p ++ ';' :: pa else p) = (p, pa)) :
    urlparse (urlunparse ⟨s, n, p, pa, q, []⟩) = ⟨s, n, p, pa, q, []⟩ := by
  have hurl0_hash : hasChar '#' (if pa ≠ [] then p ++ ';' :: pa else p) = false := by
    split
    · rw [hasChar_append]
      simp [hasChar, hp_hash, hpa_hash]
    · exact hp_hash
  have hurl0_q : hasChar '?' (if pa ≠ [] then p ++ ';' :: pa else p) = false := by
    split
    · rw [hasChar_append]
      simp [hasChar, hp_q, hpa_q]
    · exact hp_q
  have hurl0_head : (if pa ≠ [] then p ++ ';' :: pa else p) = [] ∨
      (if pa ≠ [] then p ++ ';' :: pa else p).take 1 = ['/'] := by
    split
    · rename_i hpa
      have hp_ne : p ≠ [] := by
        rcases hpa_imp with h | h
        · exact absurd h hpa
        · exact h
      have hp_tk : p.take 1 = ['/'] := by
        rcases hp_head with h | h
        · exact absurd h hp_ne
        · exact h
      right
      cases p with
      | nil => exact absurd rfl hp_ne
      | cons c t =>
        simp [List.take] at hp_tk ⊢
        exact hp_tk
    · exact hp_head
  have hurl0' : (if (if pa ≠ [] then p ++ ';' :: pa else p) ≠ [] ∧
        (if pa ≠ [] then p ++ ';' :: pa else p).take 1 ≠ ['/'] then
        '/' :: (if pa ≠ [] then p ++ ';' :: pa else p)
      else (if pa ≠ [] then p ++ ';' :: pa else p)) =
      (if pa ≠ [] then p ++ ';' :: pa else p) := by
    rcases hurl0_head with h | h
    · rw [if_neg]
      intro hcon
      exact hcon.1 h
    · rw [if_neg]
      intro hcon
      exact hcon.2 h
  have hunp : urlunparse ⟨s, n, p, pa, q, []⟩ =
      s ++ ':' :: '/' :: '/' :: (n ++ ((if pa ≠ [] then p ++ ';' :: pa else p) ++
        (if q ≠ [] then '?' :: q else []))) := by
    unfold urlunparse
    dsimp only
    rw [hurl0']
    rw [if_pos (Or.inl hn_ne), if_pos hs_ne]
    rw [if_neg (by simp : ¬ (([] : List Char) ≠ []))]
    split
    · simp [List.append_assoc]
    · simp [List.append_assoc]
  rw [hunp]
  unfold urlparse
  try dsimp only
  rw [splitScheme_round _ hs_ne hs_alpha hs_chars hs_lower hs_colon]
  try dsimp only
  have htail : match ((if pa ≠ [] then p ++ ';' :: pa else p) ++
      (if q ≠ [] then '?' :: q else [])) with
      | [] => True
      | c :: _ => (fun c => !(stopChar c)) c = false := by
    by_cases hq : q = []
    · subst hq
      rw [if_neg (by simp : ¬ (([] : List Char) ≠ []))]
      rw [List.append_nil]
      rcases hurl0_head with h | h
      · rw [h]
        trivial
      · rcases hx : (if pa ≠ [] then p ++ ';' :: pa else p) with _ | ⟨c, t⟩
        · trivial
        · rw [hx] at h
          simp [List.take] at h
          subst h
          simp [stopChar]
    · rw [if_pos hq]
      rcases hurl0_head with h | h
      · rw [h]
        simp [stopChar]
      · rcases hx : (if pa ≠ [] then p ++ ';' :: pa else p) with _ | ⟨c, t⟩
        · simp [stopChar]
        · rw [hx] at h
          simp [List.take] at h
          subst h
          simp [stopChar]
  have hnet := takeWhile_append_all (p := fun c => !(stopChar c)) n
    ((if pa ≠ [] then p ++ ';' :: pa else p) ++ (if q ≠ [] then '?' :: q else []))
    (fun c hc => by simp [hn_stop c hc]) htail
  rw [show splitNetloc ('/' :: '/' :: (n ++ ((if pa ≠ [] then p ++ ';' :: pa else p) ++
      (if q ≠ [] then '?' :: q else [])))) =
      ((n ++ ((if pa ≠ [] then p ++ ';' :: pa else p) ++
        (if q ≠ [] then '?' :: q else []))).takeWhile (fun c => !(stopChar c)),
       (n ++ ((if pa ≠ [] then p ++ ';' :: pa else p) ++
        (if q ≠ [] then '?' :: q else []))).dropWhile (fun c => !(stopChar c))) from rfl]
  try dsimp only
  rw [hnet.1, hnet.2]
  try dsimp only
  have htail_hash : hasChar '#' ((if pa ≠ [] then p ++ ';' :: pa else p) ++
      (if q ≠ [] then '?' :: q else [])) = false := by
    rw [hasChar_append, hurl0_hash]
    split
    · simp [hasChar, hq_hash]
    · simp [hasChar]
  rw [splitAtFirst_of_not htail_hash]
  try dsimp only
  by_cases hq : q = []
  · subst hq
    rw [if_neg (by simp : ¬ (([] : List Char) ≠ []))]
    rw [List.append_nil]
    rw [splitAtFirst_of_not hurl0_q]
    dsimp only
    rw [hparams]
  · rw [if_pos hq]
    rw [splitAtFirst_append q hurl0_q]
    dsimp only
    rw [hparams]

/-- The lower-cased netloc component normalization produces. -/
def normNetloc (u : List Char) : List Char := toLowerL (urlparse u).netloc

/-- The lower-cased, index- and slash-stripped path normalization produces. -/
def normPath (u : List Char) : List Char :=
  stripSlash (stripIndex (toLowerL (urlparse u).path))

/-- The query-filtering step of `normalize_url`. -/
def filterQ (x : List Char) : List Char :=
  joinChar '&' ((splitOnChar '&' x).filter keepParam)

/-- The filtered query normalization produces. -/
def normQuery (u : List Char) : List Char := filterQ (urlparse u).query

theorem normalize_url_eq (u : List Char) :
    normalize_url u = urlunparse ⟨(urlparse u).scheme, normNetloc u, normPath u,
      (urlparse u).params, normQuery u, []⟩ := rfl

theorem toLowerL_normPath (u : List Char) : toLowerL (normPath u) = normPath u := by
  apply toLowerL_fixed_of_mem
  intro c hc
  have h1 : c ∈ stripIndex (toLowerL (urlparse u).path) :=
    (stripSlash_sublist _).subset hc
  have h2 : c ∈ toLowerL (urlparse u).path := (stripIndex_sublist _).subset h1
  exact mem_toLowerL_fixed _ c h2

theorem filterQ_filterQ (x : List Char) : filterQ (filterQ x) = filterQ x := by
  have hkeep : ∀ z ∈ (splitOnChar '&' x).filter keepParam, keepParam z = true :=
    fun z hz => (List.mem_filter.mp hz).2
  have hfree : ∀ z ∈ (splitOnChar '&' x).filter keepParam, hasChar '&' z = false :=
    fun z hz => mem_splitOnChar_not_hasChar (List.mem_filter.mp hz).1
  cases hl : (splitOnChar '&' x).filter keepParam with
  | nil =>
    unfold filterQ
    rw [hl]
    decide
  | cons y ys =>
    conv_lhs => rw [filterQ, filterQ, hl]
    conv_rhs => rw [filterQ, hl]
    rw [splitOnChar_joinChar (by simp) (by rw [← hl]; exact hfree)]
    rw [List.filter_eq_self.mpr (by rw [← hl]; exact hkeep)]

/-- Well-formedness of a URL under which normalization is stable: an http(s)
    URL whose normalized components re-parse exactly and whose normalized path
    triggers no further index-file or trailing-slash strip. -/
def GoodUrl (u : List Char) : Prop :=
  ((urlparse u).scheme = ("http").toList ∨ (urlparse u).scheme = ("https").toList) ∧
  normNetloc u ≠ [] ∧
  (normNetloc u).all (fun c => !(stopChar c)) = true ∧
  (normPath u = [] ∨ (normPath u).take 1 = ['/']) ∧
  ((urlparse u).params = [] ∨ normPath u ≠ []) ∧
  hasChar '#' (normPath u) = false ∧
  hasChar '#' (urlparse u).params = false ∧
  hasChar '#' (normQuery u) = false ∧
  hasChar '?' (normPath u) = false ∧
  hasChar '?' (urlparse u).params = false ∧
  splitParams (if (urlparse u).params ≠ [] then
      normPath u ++ ';' :: (urlparse u).params else normPath u) =
    (normPath u, (urlparse u).params) ∧
  stripIndex (normPath u) = normPath u ∧
  stripSlash (normPath u) = normPath u

instance (u : List Char) : Decidable (GoodUrl u) := by
  unfold GoodUrl
  exact inferInstance

theorem urlparse_normalize (u : List Char) (h : GoodUrl u) :
    urlparse (normalize_url u) = ⟨(urlparse u).scheme, normNetloc u, normPath u,
      (urlparse u).params, normQuery u, []⟩ := by
  obtain ⟨h1, h2, h3, h4, h5, h6, h7, h8, h9, h10, h11, h12, h13⟩ := h
  rw [normalize_url_eq u]
  have hstop : ∀ c ∈ normNetloc u, stopChar c = false := by
    intro c hc
    have := List.all_eq_true.mp h3 c hc
    simpa using this
  rcases h1 with hsch | hsch <;>
    exact urlparse_urlunparse (hsch ▸ (by decide)) (hsch ▸ (by decide))
      (hsch ▸ (by decide)) (hsch ▸ (by decide)) (hsch ▸ (by decide))
      h2 hstop h4 h5 h6 h7 h8 h9 h10 h11

/-- C6 (amended): URL normalization is idempotent for every well-formed
    http(s) URL whose normalized path triggers no further strip — i.e. does
    not end in another `/index.{html,php,asp}` segment or a redundant trailing
    slash once the first pass has stripped; the counterexample shows a path
    ending in a doubled slash is stripped again by a second pass. -/
theorem normalize_idempotent_cond :
    ∀ u, GoodUrl u → normalize_url (normalize_url u) = normalize_url u := by
  intro u h
  have hp := urlparse_normalize u h
  obtain ⟨h1, h2, h3, h4, h5, h6, h7, h8, h9, h10, h11, h12, h13⟩ := h
  have hnet2 : toLowerL (normNetloc u) = normNetloc u := by
    unfold normNetloc
    exact toLowerL_idem _
  have hq2 : filterQ (normQuery u) = normQuery u := by
    unfold normQuery
    exact filterQ_filterQ _
  rw [normalize_url_eq (normalize_url u)]
  simp only [normNetloc, normPath, normQuery] at hp ⊢
  rw [hp]
  dsimp only
  rw [show toLowerL (toLowerL (urlparse u).netloc) = toLowerL (urlparse u).netloc
    from hnet2]
  rw [show toLowerL (stripSlash (stripIndex (toLowerL (urlparse u).path))) =
      stripSlash (stripIndex (toLowerL (urlparse u).path)) from toLowerL_normPath u]
  rw [show stripIndex (stripSlash (stripIndex (toLowerL (urlparse u).path))) =
      stripSlash (stripIndex (toLowerL (urlparse u).path)) from h12]
  rw [show stripSlash (stripSlash (stripIndex (toLowerL (urlparse u).path))) =
      stripSlash (stripIndex (toLowerL (urlparse u).path)) from h13]
  rw [show filterQ (filterQ (urlparse u).query) = filterQ (urlparse u).query
    from hq2]
  exact (normalize_url_eq u).symm

/-- C6, witness: idempotence applied at a concrete well-formed URL with mixed
    case, a tracking parameter, an index file and no re-strippable remainder. -/
theorem normalize_idempotent_cond_witness :
    normalize_url (normalize_url
      (("http://Example.com/Docs/index.html?utm_source=x&a=1").toList)) =
      normalize_url (("http://Example.com/Docs/index.html?utm_source=x&a=1").toList) :=
  normalize_idempotent_cond _ (by decide)

/-- C6, counterexample: normalization is not idempotent on
    `http://x.com/a//` — the first pass strips one trailing slash, yielding
    `http://x.com/a/`, and a second pass strips again. -/
theorem normalize_not_idempotent :
    normalize_url (normalize_url (("http://x.com/a//").toList)) ≠
      normalize_url (("http://x.com/a//").toList) := by
  decide

/-- C7 (amended): for every well-formed URL with a query string, the
    normalized URL's query consists of exactly the original parameters that
    contain `=` and whose name (the part before the first `=`) is not in the
    denylist {utm_source, utm_medium, utm_campaign, fbclid, gclid} — retained
    unchanged and in order, `&`-joined; parameters lacking `=` are dropped
    even when their name is not denylisted. -/
theorem normalize_query_filter (u : List Char) (h : GoodUrl u) :
    (urlparse (normalize_url u)).query =
      joinChar '&' ((splitOnChar '&' (urlparse u).query).filter keepParam) := by
  rw [urlparse_normalize u h]
  rfl

/-- C7, witness: the filter applied to `?a=1&utm_source=2&b=3` keeps `a=1` and
    `b=3`, in order. -/
theorem normalize_query_filter_witness :
    (urlparse (normalize_url (("http://x.com/p?a=1&utm_source=2&b=3").toList))).query =
      ("a=1&b=3").toList :=
  (normalize_query_filter _ (by decide)).trans (by decide)

/-- C7, counterexample: the parameter `foo` contains no `=` and its name is
    not in the denylist, yet normalization drops it — so normalization does
    not retain every parameter whose name is outside the denylist. -/
theorem query_filter_drops_eqless :
    ¬ ((urlparse (normalize_url (("http://x.com/p?foo&a=1").toList))).query =
      joinChar '&' ((splitOnChar '&'
        (urlparse (("http://x.com/p?foo&a=1").toList)).query).filter
        (fun pr => !(decide (pr.takeWhile (fun c => c ≠ '=') ∈ blocked_params))))) := by
  decide
